import Mathlib

/-!
Shallow embedding of the Raft replica core in `src/raft/raft.go`
(single-node step functions; commands are opaque and modelled as naturals,
peer ids are strings as in the source). Each definition mirrors the body
of the Go function of the same (or closely corresponding) name.
-/

set_option maxRecDepth 4000

namespace RaftModel

/-- The three roles of a replica (`ServerState` in the source). -/
inductive ServerState where
  | Follower
  | Candidate
  | Leader
deriving DecidableEq, Repr

export ServerState (Follower Candidate Leader)

/-- A log entry: `{Index, Term, Command}`; the command is opaque. -/
structure LogEntry where
  Index : Nat
  Term : Nat
  Command : Nat
deriving DecidableEq, Repr

/-- The replica state (the fields of `Raft` that the handlers read or write;
`peers` is represented by its length `numPeers`, `me` is this peer's index). -/
structure RaftState where
  id : String
  me : Nat
  numPeers : Nat
  state : ServerState
  isDecommissioned : Bool
  currentTerm : Nat
  votedFor : String
  leaderID : String
  log : List LogEntry
  commitIndex : Nat
  lastApplied : Nat
  nextIndex : List Nat
  matchIndex : List Nat
  lastHeartBeat : Nat
deriving DecidableEq, Repr

/-- `transitionToFollower`: set role to Follower, adopt the new term, clear the vote. -/
def transitionToFollower (rf : RaftState) (newTerm : Nat) : RaftState :=
  { rf with state := Follower, currentTerm := newTerm, votedFor := "" }

/-- `getLastEntryInfo`: `(Index, Term)` of the last entry, `(0,0)` on an empty log. -/
def getLastEntryInfo (rf : RaftState) : Nat × Nat :=
  if rf.log.length > 0 then
    let e := rf.log.getD (rf.log.length - 1) ⟨0, 0, 0⟩
    (e.Index, e.Term)
  else (0, 0)

/-- `GetState`: current term and whether this node believes it is the leader. -/
def GetState (rf : RaftState) : Nat × Bool :=
  (rf.currentTerm, rf.state == Leader)

/-- `Kill`: set the decommissioned flag. -/
def Kill (rf : RaftState) : RaftState :=
  { rf with isDecommissioned := true }

/-- `Start(command)`: returns the new state together with `(index, term, isLeader)`.
The index is an `Int` because the source returns `-1` for non-leaders. -/
def Start (rf : RaftState) (command : Nat) : RaftState × Int × Nat × Bool :=
  let term := (GetState rf).1
  let isLeader := (GetState rf).2
  if !isLeader then (rf, -1, term, false)
  else
    let nextIndex := if rf.log.length > 0 then rf.log.length + 1 else 1
    ({ rf with log := rf.log ++ [⟨nextIndex, rf.currentTerm, command⟩] },
      (nextIndex : Int), term, true)

-- RequestVote RPC

/-- `RequestVoteArgs`. -/
structure RequestVoteArgs where
  Term : Nat
  CandidateID : String
  LastLogIndex : Nat
  LastLogTerm : Nat
deriving DecidableEq, Repr

/-- `RequestVoteReply`. -/
structure RequestVoteReply where
  Term : Nat
  VoteGranted : Bool
  Id : String
deriving DecidableEq, Repr

/-- `RequestVote` handler, mirroring the branch structure of the source:
deny on a stale term; grant whenever `args.Term ≥ currentTerm` and the
candidate's log is up-to-date (stepping down and adopting `args.Term`);
the third source branch repeats the `logUpToDate` test and is otherwise
unreachable; in all remaining cases the reply keeps its zero value `false`. -/
def requestVote (rf : RaftState) (args : RequestVoteArgs) :
    RaftState × RequestVoteReply :=
  let lastIndex := (getLastEntryInfo rf).1
  let lastTerm := (getLastEntryInfo rf).2
  let logUpToDate : Bool :=
    if lastTerm = args.LastLogTerm then decide (lastIndex ≤ args.LastLogIndex)
    else decide (lastTerm < args.LastLogTerm)
  let replyTerm := rf.currentTerm
  let replyId := rf.id
  if args.Term < rf.currentTerm then
    (rf, ⟨replyTerm, false, replyId⟩)
  else if args.Term ≥ rf.currentTerm && logUpToDate then
    ({ transitionToFollower rf args.Term with votedFor := args.CandidateID },
      ⟨replyTerm, true, replyId⟩)
  else if (rf.votedFor == "" || args.CandidateID == rf.votedFor) && logUpToDate then
    ({ rf with votedFor := args.CandidateID }, ⟨replyTerm, true, replyId⟩)
  else
    (rf, ⟨replyTerm, false, replyId⟩)

-- AppendEntries RPC

/-- `AppendEntriesArgs`. -/
structure AppendEntriesArgs where
  Term : Nat
  LeaderID : String
  PreviousLogIndex : Nat
  PreviousLogTerm : Nat
  LogEntries : List LogEntry
  LeaderCommit : Nat
deriving DecidableEq, Repr

/-- `AppendEntriesReply`. -/
structure AppendEntriesReply where
  Term : Nat
  Success : Bool
  ConflictingLogTerm : Nat
  ConflictingLogIndex : Nat
deriving DecidableEq, Repr

/-- The scan of the source's first loop over `rf.log`: position of the entry
matching `(PreviousLogIndex, PreviousLogTerm)` (Go's `prevLogIndex`, `-1`
becoming `none`), together with the running `reply.ConflictingLogTerm`
(set when an entry has the right index but the wrong term; no break there). -/
def findPrevAux (pIdx pTerm : Nat) :
    List LogEntry → Nat → Nat → Option Nat × Nat
  | [], _, ct => (none, ct)
  | e :: rest, i, ct =>
    if e.Index = pIdx then
      if e.Term = pTerm then (some i, ct)
      else findPrevAux pIdx pTerm rest (i + 1) e.Term
    else findPrevAux pIdx pTerm rest (i + 1) ct

/-- `entryConsistent` from the source: same index and same term. -/
def entryConsistent (a b : LogEntry) : Bool :=
  a.Index == b.Index && a.Term == b.Term

/-- The source's truncation walk: the first list argument is the local suffix
starting at position `i` (just past the match), `ei` the incoming position.
At the first local entry where the incoming list has run out or index/term
differ, truncate the local log at that position; returns the final incoming
position and the resulting local log. -/
def walkAux (entries log : List LogEntry) : List LogEntry → Nat → Nat → Nat × List LogEntry
  | [], _, ei => (ei, log)
  | e :: rest, i, ei =>
    if ei ≥ entries.length || !entryConsistent e (entries.getD ei ⟨0, 0, 0⟩) then
      (ei, log.take i)
    else
      walkAux entries log rest (i + 1) (ei + 1)

/-- The source's `log[len(log)-1]`: `none` models the index-out-of-range panic
on an empty log. -/
def lastOrPanic (log : List LogEntry) : Option LogEntry :=
  if log.length > 0 then some (log.getD (log.length - 1) ⟨0, 0, 0⟩) else none

/-- First `Index` in the log whose entry has term `t` (`0` when none),
mirroring the conflict-index loop of the source. -/
def firstIndexWithTerm (log : List LogEntry) (t : Nat) : Nat :=
  match log with
  | [] => 0
  | e :: rest => if e.Term = t then e.Index else firstIndexWithTerm rest t

/-- The state mutation the handler performs before any log processing when
`args.Term ≥ currentTerm`: step down to Follower with `args.Term`, record the
leader hint, and (the hint now matching) record the heartbeat time `now`. -/
def aeStepDown (rf : RaftState) (args : AppendEntriesArgs) (now : Nat) : RaftState :=
  let rf1 := { transitionToFollower rf args.Term with leaderID := args.LeaderID }
  if rf1.leaderID = args.LeaderID then { rf1 with lastHeartBeat := now } else rf1

/-- The log-processing half of `AppendEntries` (everything after the term
check and step-down). `replyTerm` is the receiver's term as read before the
step-down, which is what the source stores into `reply.Term`. `none` models a
panic (out-of-bounds log access). -/
def aeLogPhase (rf : RaftState) (args : AppendEntriesArgs) (replyTerm : Nat) :
    Option (RaftState × AppendEntriesReply) :=
  let scan := findPrevAux args.PreviousLogIndex args.PreviousLogTerm rf.log 0 0
  let prevPos := scan.1
  let ct := scan.2
  if prevPos.isSome || (args.PreviousLogIndex == 0 && args.PreviousLogTerm == 0) then
    let start := match prevPos with | some p => p + 1 | none => 0
    let w := walkAux args.LogEntries rf.log (rf.log.drop start) start 0
    let ei := w.1
    let log1 := w.2
    let log2 := if ei < args.LogEntries.length then log1 ++ args.LogEntries.drop ei else log1
    if args.LeaderCommit > rf.commitIndex then
      match lastOrPanic log2 with
      | none => none
      | some last =>
        let newCommit := if args.LeaderCommit < last.Index then args.LeaderCommit else last.Index
        some ({ rf with log := log2, commitIndex := newCommit },
              ⟨replyTerm, true, ct, 0⟩)
    else
      some ({ rf with log := log2 }, ⟨replyTerm, true, ct, 0⟩)
  else
    match (if ct = 0 then (lastOrPanic rf.log).map (fun e => e.Term) else some ct) with
    | none => none
    | some ct2 => some (rf, ⟨replyTerm, false, ct2, firstIndexWithTerm rf.log ct2⟩)

/-- `AppendEntries` handler: stale-term rejection, step-down, then the log
phase. `now` stands for the wall-clock read; `none` models a panic. -/
def appendEntries (rf : RaftState) (args : AppendEntriesArgs) (now : Nat) :
    Option (RaftState × AppendEntriesReply) :=
  if args.Term < rf.currentTerm then
    some (rf, ⟨rf.currentTerm, false, 0, 0⟩)
  else
    aeLogPhase (aeStepDown rf args now) args rf.currentTerm

-- Leader commit advance

/-- Whether peer `j` counts toward replication of index `N`: not the leader
itself and `matchIndex[j] ≥ N` (out-of-range reads default to `0`, which
cannot occur when `matchIndex` has one slot per peer). -/
def peerHolds (rf : RaftState) (N j : Nat) : Bool :=
  !(j == rf.me) && decide (N ≤ rf.matchIndex.getD j 0)

/-- The inner counting loop of `updateCommitIndex` over the peer indices `l`
with running count `count` (the leader itself counted as `1`): returns whether
the strict-majority check fires, which in the source sets `commitIndex := N`.
The check runs only immediately after an increment, as in the source. -/
def innerCount (rf : RaftState) (N : Nat) : List Nat → Nat → Bool
  | [], _ => false
  | j :: rest, count =>
    if peerHolds rf N j then
      if rf.numPeers / 2 < count + 1 then true
      else innerCount rf N rest (count + 1)
    else innerCount rf N rest count

/-- The outer backward scan of `updateCommitIndex`: `i` is one past the
current position; on a majority the scan continues with the updated commit
index, and it breaks at the first entry failing the term/index test. -/
def updateCommitAux (rf : RaftState) : Nat → Nat → Nat
  | commit, 0 => commit
  | commit, i + 1 =>
    let v := rf.log.getD i ⟨0, 0, 0⟩
    if v.Term = rf.currentTerm ∧ commit < v.Index then
      if innerCount rf v.Index (List.range rf.numPeers) 1 then
        updateCommitAux rf v.Index i
      else
        updateCommitAux rf commit i
    else commit

/-- `updateCommitIndex`: the leader's commit advance. -/
def updateCommitIndex (rf : RaftState) : RaftState :=
  { rf with commitIndex := updateCommitAux rf rf.commitIndex rf.log.length }

/-- Strict majority of `|peers|` holds index `N`: the leader plus the
qualifying peers. -/
def majority (rf : RaftState) (N : Nat) : Prop :=
  rf.numPeers / 2 < 1 + (List.range rf.numPeers).countP (peerHolds rf N)

instance (rf : RaftState) (N : Nat) : Decidable (majority rf N) := by
  unfold majority; infer_instance

/-- `N` is eligible for the commit advance: some log entry carries index `N`
with the current term, `N` exceeds the present commit index, and a strict
majority holds it. -/
def committable (rf : RaftState) (N : Nat) : Prop :=
  (∃ e ∈ rf.log, e.Index = N ∧ e.Term = rf.currentTerm) ∧
    rf.commitIndex < N ∧ majority rf N

instance (rf : RaftState) (N : Nat) : Decidable (committable rf N) := by
  unfold committable; infer_instance

-- Structural predicates on logs (spec invariant I1 and term monotonicity)

/-- Entries carry consecutive indices starting at `n`. -/
def denseFrom : Nat → List LogEntry → Bool
  | _, [] => true
  | n, e :: rest => e.Index == n && denseFrom (n + 1) rest

/-- Log indices are dense starting at 1 (invariant I1). -/
def isDense (log : List LogEntry) : Bool := denseFrom 1 log

/-- Entry terms are nondecreasing along the log. -/
def termsMonotone : List LogEntry → Bool
  | [] => true
  | [_] => true
  | a :: b :: rest => decide (a.Term ≤ b.Term) && termsMonotone (b :: rest)

-- Persistence

/-- `RaftPersistence`: the persistent record `{CurrentTerm, Log, VotedFor}`. -/
structure RaftPersistence where
  CurrentTerm : Nat
  Log : List LogEntry
  VotedFor : String
deriving DecidableEq, Repr

/-- Modelled from the spec: the serializer of §4.1 for the persistent record.
The source delegates the byte format to Go's `encoding/gob`, an external
library outside `src/`; per the spec the format need only be a
self-describing blob symmetric with the deserializer. Blob tokens are
naturals; a string is its length followed by its character codes. -/
def encodeString (s : String) : List Nat :=
  s.length :: s.toList.map Char.toNat

/-- Modelled from the spec: inverse of `encodeString`; returns the decoded
string and the remaining blob. -/
def decodeString (l : List Nat) : Option (String × List Nat) :=
  match l with
  | [] => none
  | n :: rest =>
    if n ≤ rest.length then
      some (String.mk ((rest.take n).map Char.ofNat), rest.drop n)
    else none

/-- Modelled from the spec: each log entry is serialized as its three fields. -/
def encodeEntries : List LogEntry → List Nat
  | [] => []
  | e :: rest => e.Index :: e.Term :: e.Command :: encodeEntries rest

/-- Modelled from the spec: decode `k` log entries from the blob. -/
def decodeEntries : Nat → List Nat → Option (List LogEntry × List Nat)
  | 0, l => some ([], l)
  | k + 1, i :: t :: c :: rest =>
    (decodeEntries k rest).map (fun p => (⟨i, t, c⟩ :: p.1, p.2))
  | _ + 1, _ => none

/-- Modelled from the spec: serialize the persistent record, fields in the
source's struct order (`CurrentTerm`, `Log`, `VotedFor`). -/
def serialize (s : RaftPersistence) : List Nat :=
  s.CurrentTerm :: s.Log.length :: (encodeEntries s.Log ++ encodeString s.VotedFor)

/-- Modelled from the spec: deserialize a blob back into a persistent record;
fails on a malformed or incomplete blob. -/
def deserialize (l : List Nat) : Option RaftPersistence :=
  match l with
  | [] => none
  | t :: rest =>
    match rest with
    | [] => none
    | n :: rest2 =>
      match decodeEntries n rest2 with
      | none => none
      | some (log, rest3) =>
        match decodeString rest3 with
        | some (vf, []) => some ⟨t, log, vf⟩
        | _ => none

/-- `persist`: write the record built from `currentTerm`, `log`, `votedFor`. -/
def persist (rf : RaftState) : List Nat :=
  serialize ⟨rf.currentTerm, rf.log, rf.votedFor⟩

/-- `readPersist`: on empty bytes do nothing; otherwise decode (a failed
decode leaves the zero-valued record, as the source ignores decode errors)
and install the three fields. -/
def readPersist (rf : RaftState) (data : List Nat) : RaftState :=
  if data.length < 1 then rf
  else
    let obj := (deserialize data).getD ⟨0, [], ""⟩
    { rf with votedFor := obj.VotedFor, currentTerm := obj.CurrentTerm, log := obj.Log }

-- Concrete replica states and requests used as test inputs below

/-- A follower at term 1 with an empty log (fields shared by the concrete
states below). -/
def rfBase : RaftState :=
  { id := "B", me := 1, numPeers := 3, state := Follower, isDecommissioned := false,
    currentTerm := 1, votedFor := "", leaderID := "", log := [],
    commitIndex := 0, lastApplied := 0, nextIndex := [], matchIndex := [],
    lastHeartBeat := 0 }

/-- Follower holding two entries of term 1. -/
def rfC1 : RaftState := { rfBase with log := [⟨1, 1, 10⟩, ⟨2, 1, 11⟩] }

/-- A matching request from the term-1 leader whose entries list stops after
the first entry, with no divergence from the local log. -/
def argsC1 : AppendEntriesArgs := ⟨1, "A", 0, 0, [⟨1, 1, 10⟩], 0⟩

/-- Follower that has already voted for candidate "A" in its current term 1. -/
def rfC2 : RaftState := { rfBase with id := "C", votedFor := "A" }

/-- A same-term vote request from a different candidate "B" with an
up-to-date log. -/
def argsC2 : RequestVoteArgs := ⟨1, "B", 0, 0⟩

/-- Candidate at term 1 holding one entry of term 1. -/
def rfC3 : RaftState := { rfBase with state := Candidate, votedFor := "C", log := [⟨1, 1, 0⟩] }

/-- A vote request at the much higher term 5 whose candidate log
(last = (0,0)) is not up-to-date against `rfC3`. -/
def argsC3 : RequestVoteArgs := ⟨5, "B", 0, 0⟩

/-- A well-formed request whose previous entry (1,1) is absent from the
receiver's empty log, with `LeaderCommit = 1`. -/
def argsC4 : AppendEntriesArgs := ⟨1, "A", 1, 1, [], 1⟩

/-- Follower with five term-1 entries, the first three committed. -/
def rfC5 : RaftState :=
  { rfBase with
    log := [⟨1, 1, 0⟩, ⟨2, 1, 0⟩, ⟨3, 1, 0⟩, ⟨4, 1, 0⟩, ⟨5, 1, 0⟩],
    commitIndex := 3 }

/-- A term-2 request carrying only the first entry, with `LeaderCommit = 5`. -/
def argsC5 : AppendEntriesArgs := ⟨2, "A", 0, 0, [⟨1, 1, 0⟩], 5⟩

/-- A single-node cluster: the leader alone holds entry 1 of its own term. -/
def rfC6 : RaftState :=
  { rfBase with
    numPeers := 1, me := 0, matchIndex := [0], state := Leader, log := [⟨1, 1, 0⟩] }

/-- A three-node leader whose second entry is replicated on one peer
(`matchIndex = [0, 2, 0]`), so indices 1 and 2 are both majority-held. -/
def rfW6 : RaftState :=
  { rfBase with
    numPeers := 3, me := 0, state := Leader,
    matchIndex := [0, 2, 0], log := [⟨1, 1, 7⟩, ⟨2, 1, 8⟩], commitIndex := 0 }

/-- A leader at term 2 with an empty log. -/
def rfC7 : RaftState := { rfBase with state := Leader, currentTerm := 2 }

/-- A leader at term 1 holding one entry. -/
def rfW9 : RaftState := { rfBase with state := Leader, log := [⟨1, 1, 5⟩] }

/-- A candidate at term 1 that has voted for "C". -/
def rfW10 : RaftState := { rfBase with state := Candidate, votedFor := "C" }

/-- A same-term heartbeat from leader "A". -/
def argsW10 : AppendEntriesArgs := ⟨1, "A", 0, 0, [], 0⟩

end RaftModel

/-!
Theorems. Each claim `Cn` of the specification review has exactly one
theorem below, marked in its doc comment.
-/

namespace RaftModel

-- Helper lemmas

/-- Elements read through `getD` at an in-range position belong to the list. -/
theorem getD_mem : ∀ (l : List LogEntry) (p : Nat) (d : LogEntry),
    p < l.length → l.getD p d ∈ l := by
  intro l
  induction l with
  | nil => intro p d h; simp at h
  | cons e rest ih =>
    intro p d h
    cases p with
    | zero => simp
    | succ q =>
      simp only [List.getD_cons_succ]
      exact List.mem_cons_of_mem _ (ih q d (by simpa using h))

/-- A member of a list is read back by `getD` at some in-range position. -/
theorem mem_getD : ∀ (l : List LogEntry) (e d : LogEntry),
    e ∈ l → ∃ p, p < l.length ∧ l.getD p d = e := by
  intro l
  induction l with
  | nil => intro e d h; simp at h
  | cons a rest ih =>
    intro e d h
    rcases List.mem_cons.mp h with h | h
    · exact ⟨0, by simp, by simpa using h.symm⟩
    · obtain ⟨p, hp, hpe⟩ := ih e d h
      exact ⟨p + 1, by simpa using hp, by simpa using hpe⟩

/-- In a log dense from `n`, the entry at position `p` has index `n + p`. -/
theorem denseFrom_getD : ∀ (l : List LogEntry) (n p : Nat) (d : LogEntry),
    denseFrom n l = true → p < l.length → (l.getD p d).Index = n + p := by
  intro l
  induction l with
  | nil => intro n p d _ h; simp at h
  | cons e rest ih =>
    intro n p d hd hp
    simp only [denseFrom, Bool.and_eq_true, beq_iff_eq] at hd
    cases p with
    | zero => simpa using hd.1
    | succ q =>
      simp only [List.getD_cons_succ]
      have := ih (n + 1) q d hd.2 (by simpa using hp)
      omega

/-- In a dense log, the entry at position `p` has index `p + 1`. -/
theorem isDense_getD (l : List LogEntry) (p : Nat) (d : LogEntry)
    (hd : isDense l = true) (hp : p < l.length) : (l.getD p d).Index = p + 1 := by
  have := denseFrom_getD l 1 p d hd hp
  omega

/-- Along a term-monotone log, terms are nondecreasing in the position. -/
theorem termsMonotone_le : ∀ (l : List LogEntry) (d : LogEntry) (p q : Nat),
    termsMonotone l = true → p ≤ q → q < l.length →
    (l.getD p d).Term ≤ (l.getD q d).Term := by
  intro l
  induction l with
  | nil => intro d p q _ _ h; simp at h
  | cons a rest ih =>
    intro d p q hm hpq hq
    have hrest : termsMonotone rest = true := by
      cases rest with
      | nil => rfl
      | cons b t =>
        simp only [termsMonotone, Bool.and_eq_true] at hm
        exact hm.2
    cases p with
    | succ p' =>
      cases q with
      | zero => omega
      | succ q' =>
        simp only [List.getD_cons_succ]
        exact ih d p' q' hrest (by omega) (by simpa using hq)
    | zero =>
      cases q with
      | zero => exact le_refl _
      | succ q' =>
        cases rest with
        | nil => simp at hq
        | cons b t =>
          simp only [termsMonotone, Bool.and_eq_true, decide_eq_true_eq] at hm
          have h1 : a.Term ≤ b.Term := hm.1
          have h2 : ((b :: t).getD 0 d).Term ≤ ((b :: t).getD q' d).Term :=
            ih d 0 q' hrest (Nat.zero_le _) (by simpa using hq)
          simp only [List.getD_cons_zero] at h2
          simp only [List.getD_cons_zero, List.getD_cons_succ]
          exact le_trans h1 h2

/-- The inner counting loop fires exactly when at least one peer qualifies and
the total count (`count` plus the qualifying peers in `l`) is a strict
majority threshold crossing. -/
theorem innerCount_cons (rf : RaftState) (N j : Nat) (rest : List Nat) (count : Nat) :
    innerCount rf N (j :: rest) count =
      if peerHolds rf N j then
        (if rf.numPeers / 2 < count + 1 then true else innerCount rf N rest (count + 1))
      else innerCount rf N rest count := rfl

theorem innerCount_eq_true_iff (rf : RaftState) (N : Nat) :
    ∀ (l : List Nat) (count : Nat),
      innerCount rf N l count = true ↔
        1 ≤ l.countP (peerHolds rf N) ∧
          rf.numPeers / 2 < count + l.countP (peerHolds rf N) := by
  intro l
  induction l with
  | nil => intro count; simp [innerCount]
  | cons j rest ih =>
    intro count
    by_cases hj : peerHolds rf N j = true
    · rw [innerCount_cons, if_pos hj, List.countP_cons, if_pos hj]
      by_cases hc : rf.numPeers / 2 < count + 1
      · rw [if_pos hc]
        constructor
        · intro _
          omega
        · intro _
          rfl
      · rw [if_neg hc, ih]
        omega
    · have hj' : peerHolds rf N j = false := by
        revert hj
        cases peerHolds rf N j <;> simp
      rw [innerCount_cons, if_neg (by rw [hj']; exact Bool.false_ne_true),
        List.countP_cons, hj', ih]
      simp


theorem updateCommitAux_succ (rf : RaftState) (commit p : Nat) :
    updateCommitAux rf commit (p + 1) =
      (if (rf.log.getD p ⟨0, 0, 0⟩).Term = rf.currentTerm ∧ commit < (rf.log.getD p ⟨0, 0, 0⟩).Index then
        (if innerCount rf (rf.log.getD p ⟨0, 0, 0⟩).Index (List.range rf.numPeers) 1 then
          updateCommitAux rf (rf.log.getD p ⟨0, 0, 0⟩).Index p
        else updateCommitAux rf commit p)
      else commit) := rfl

/-- Once the running commit index is at least the scan position, the backward
scan of `updateCommitIndex` stops at once (on a dense log every remaining
entry has an index the test rejects). -/
theorem updateCommitAux_stops (rf : RaftState) (hdense : isDense rf.log = true)
    (c i : Nat) (hle : i ≤ rf.log.length) (hci : i ≤ c) :
    updateCommitAux rf c i = c := by
  cases i with
  | zero => rfl
  | succ q =>
    rw [updateCommitAux_succ, if_neg]
    intro hcond
    have hidx : (rf.log.getD q ⟨0, 0, 0⟩).Index = q + 1 :=
      isDense_getD rf.log q ⟨0, 0, 0⟩ hdense (by omega)
    omega

/-- When no index is eligible, the backward scan leaves the commit index
unchanged. -/
theorem updateCommitAux_no_committable (rf : RaftState)
    (hno : ∀ N, ¬ committable rf N) :
    ∀ i, i ≤ rf.log.length → updateCommitAux rf rf.commitIndex i = rf.commitIndex := by
  intro i
  induction i with
  | zero => intro _; rfl
  | succ p ih =>
    intro hle
    rw [updateCommitAux_succ]
    by_cases hcond : (rf.log.getD p ⟨0, 0, 0⟩).Term = rf.currentTerm ∧
        rf.commitIndex < (rf.log.getD p ⟨0, 0, 0⟩).Index
    · rw [if_pos hcond]
      have hic : innerCount rf (rf.log.getD p ⟨0, 0, 0⟩).Index (List.range rf.numPeers) 1 = false := by
        by_contra hb
        have hb' : innerCount rf (rf.log.getD p ⟨0, 0, 0⟩).Index (List.range rf.numPeers) 1 = true := by
          revert hb
          cases innerCount rf (rf.log.getD p ⟨0, 0, 0⟩).Index (List.range rf.numPeers) 1 <;> simp
        rw [innerCount_eq_true_iff] at hb'
        refine hno (rf.log.getD p ⟨0, 0, 0⟩).Index
          ⟨⟨rf.log.getD p ⟨0, 0, 0⟩, getD_mem rf.log p ⟨0, 0, 0⟩ (by omega), rfl, hcond.1⟩,
            hcond.2, ?_⟩
        have := hb'.2
        unfold majority
        omega
      rw [hic, if_neg (by exact Bool.false_ne_true)]
      exact ih (by omega)
    · rw [if_neg hcond]

/-- The backward scan only ever moves the commit index to an eligible index:
its result is the old commit index or an index that is in the log with the
current term, larger than the old commit index, and majority-held. -/
theorem updateCommitAux_result (rf : RaftState) :
    ∀ i, i ≤ rf.log.length → ∀ c, rf.commitIndex ≤ c →
      (c = rf.commitIndex ∨ committable rf c) →
      (updateCommitAux rf c i = rf.commitIndex ∨
        committable rf (updateCommitAux rf c i)) := by
  intro i
  induction i with
  | zero =>
    intro _ c _ hc
    cases hc with
    | inl h => exact Or.inl h
    | inr h => exact Or.inr h
  | succ p ih =>
    intro hle c hcge hc
    rw [updateCommitAux_succ]
    by_cases hcond : (rf.log.getD p ⟨0, 0, 0⟩).Term = rf.currentTerm ∧
        c < (rf.log.getD p ⟨0, 0, 0⟩).Index
    · rw [if_pos hcond]
      by_cases hic : innerCount rf (rf.log.getD p ⟨0, 0, 0⟩).Index (List.range rf.numPeers) 1 = true
      · rw [hic, if_pos rfl]
        refine ih (by omega) _ (by omega) (Or.inr ?_)
        rw [innerCount_eq_true_iff] at hic
        refine ⟨⟨rf.log.getD p ⟨0, 0, 0⟩, getD_mem rf.log p ⟨0, 0, 0⟩ (by omega), rfl, hcond.1⟩,
          by omega, ?_⟩
        have := hic.2
        unfold majority
        omega
      · have hic' : innerCount rf (rf.log.getD p ⟨0, 0, 0⟩).Index (List.range rf.numPeers) 1 = false := by
          revert hic
          cases innerCount rf (rf.log.getD p ⟨0, 0, 0⟩).Index (List.range rf.numPeers) 1 <;> simp
        rw [hic', if_neg (by exact Bool.false_ne_true)]
        exact ih (by omega) c hcge hc
    · rw [if_neg hcond]
      cases hc with
      | inl h => exact Or.inl h
      | inr h => exact Or.inr h

/-- With at least two peers, a dense term-monotone log bounded by the current
term, and `N` the largest eligible index, the backward scan starting at or
above `N` returns exactly `N`. -/
theorem updateCommitAux_finds_largest (rf : RaftState)
    (h2 : 2 ≤ rf.numPeers) (hdense : isDense rf.log = true)
    (hmono : termsMonotone rf.log = true)
    (hbound : rf.log.all (fun e => decide (e.Term ≤ rf.currentTerm)) = true)
    (N : Nat) (hN : committable rf N) (hmax : ∀ M, committable rf M → M ≤ N) :
    ∀ i, N ≤ i → i ≤ rf.log.length → updateCommitAux rf rf.commitIndex i = N := by
  obtain ⟨⟨e, hmem, hIdx, hTerm⟩, hgt, hmaj⟩ := hN
  obtain ⟨p0, hp0len, hp0e⟩ := mem_getD rf.log e ⟨0, 0, 0⟩ hmem
  have hp0idx : (rf.log.getD p0 ⟨0, 0, 0⟩).Index = p0 + 1 :=
    isDense_getD rf.log p0 ⟨0, 0, 0⟩ hdense hp0len
  have hNp0 : N = p0 + 1 := by rw [hp0e] at hp0idx; omega
  intro i hNi
  induction i, hNi using Nat.le_induction with
  | base =>
    intro hlen
    rw [hNp0, updateCommitAux_succ, hp0e, if_pos ⟨hTerm, by omega⟩]
    have hic : innerCount rf e.Index (List.range rf.numPeers) 1 = true := by
      rw [innerCount_eq_true_iff]
      unfold majority at hmaj
      have hhalf : 1 ≤ rf.numPeers / 2 := by omega
      rw [hIdx]
      omega
    rw [hic, if_pos rfl, hIdx, updateCommitAux_stops rf hdense N p0 (by omega) (by omega)]
    omega
  | succ i hNi ih =>
    intro hlen
    have hplen : i < rf.log.length := by omega
    have hvidx : (rf.log.getD i ⟨0, 0, 0⟩).Index = i + 1 :=
      isDense_getD rf.log i ⟨0, 0, 0⟩ hdense hplen
    have hvterm : (rf.log.getD i ⟨0, 0, 0⟩).Term = rf.currentTerm := by
      have hlo : (rf.log.getD p0 ⟨0, 0, 0⟩).Term ≤ (rf.log.getD i ⟨0, 0, 0⟩).Term :=
        termsMonotone_le rf.log ⟨0, 0, 0⟩ p0 i hmono (by omega) hplen
      have hhi : (rf.log.getD i ⟨0, 0, 0⟩).Term ≤ rf.currentTerm := by
        have hall := List.all_eq_true.mp hbound _ (getD_mem rf.log i ⟨0, 0, 0⟩ hplen)
        exact of_decide_eq_true hall
      rw [hp0e] at hlo
      omega
    rw [updateCommitAux_succ, if_pos ⟨hvterm, by omega⟩]
    have hic : innerCount rf (rf.log.getD i ⟨0, 0, 0⟩).Index (List.range rf.numPeers) 1 = false := by
      by_contra hb
      have hb' : innerCount rf (rf.log.getD i ⟨0, 0, 0⟩).Index (List.range rf.numPeers) 1 = true := by
        revert hb
        cases innerCount rf (rf.log.getD i ⟨0, 0, 0⟩).Index (List.range rf.numPeers) 1 <;> simp
      rw [innerCount_eq_true_iff] at hb'
      have hcomM : committable rf (rf.log.getD i ⟨0, 0, 0⟩).Index := by
        refine ⟨⟨rf.log.getD i ⟨0, 0, 0⟩, getD_mem rf.log i ⟨0, 0, 0⟩ hplen, rfl, hvterm⟩,
          by omega, ?_⟩
        have := hb'.2
        unfold majority
        omega
      have := hmax _ hcomM
      omega
    rw [hic, if_neg (by exact Bool.false_ne_true)]
    exact ih (by omega)

/-- Decoding inverts entry encoding, leaving the rest of the blob intact. -/
theorem decodeEntries_encodeEntries :
    ∀ (l : List LogEntry) (r : List Nat),
      decodeEntries l.length (encodeEntries l ++ r) = some (l, r) := by
  intro l
  induction l with
  | nil => intro r; rfl
  | cons e rest ih =>
    intro r
    show (decodeEntries rest.length (encodeEntries rest ++ r)).map
        (fun p => (⟨e.Index, e.Term, e.Command⟩ :: p.1, p.2)) = some (e :: rest, r)
    rw [ih]
    rfl

/-- Decoding inverts string encoding, leaving the rest of the blob intact. -/
theorem decodeString_encodeString (s : String) (r : List Nat) :
    decodeString (encodeString s ++ r) = some (s, r) := by
  have hlen : s.length = (s.toList.map Char.toNat).length := by
    rw [List.length_map]
    rfl
  show (if s.length ≤ (s.toList.map Char.toNat ++ r).length then
      some (String.mk (((s.toList.map Char.toNat ++ r).take s.length).map Char.ofNat),
        (s.toList.map Char.toNat ++ r).drop s.length)
    else none) = some (s, r)
  rw [if_pos (by rw [List.length_append]; omega)]
  rw [hlen, List.take_left, List.drop_left, List.map_map]
  rw [show (Char.ofNat ∘ Char.toNat) = id from funext Char.ofNat_toNat, List.map_id]
  cases s with
  | mk data => rfl

/-- On a dense log, the last-entry index reported by `getLastEntryInfo`
equals the log length. -/
theorem lastIndex_eq_length (rf : RaftState) (hdense : isDense rf.log = true) :
    (getLastEntryInfo rf).1 = rf.log.length := by
  unfold getLastEntryInfo
  by_cases h : rf.log.length > 0
  · rw [if_pos h]
    show (rf.log.getD (rf.log.length - 1) ⟨0, 0, 0⟩).Index = rf.log.length
    have := isDense_getD rf.log (rf.log.length - 1) ⟨0, 0, 0⟩ hdense (by omega)
    omega
  · rw [if_neg h]
    show (0 : Nat) = rf.log.length
    omega

/-- The log phase only rewrites `log` and `commitIndex`: every other field of
a successful result equals the corresponding field of the input state. -/
theorem aeLogPhase_preserves (rf : RaftState) (args : AppendEntriesArgs) (t : Nat)
    (rf' : RaftState) (reply : AppendEntriesReply)
    (h : aeLogPhase rf args t = some (rf', reply)) :
    rf'.votedFor = rf.votedFor ∧ rf'.state = rf.state ∧ rf'.currentTerm = rf.currentTerm := by
  simp only [aeLogPhase] at h
  split at h
  · split at h
    · split at h
      · exact absurd h (by simp)
      · simp only [Option.some.injEq, Prod.mk.injEq] at h
        rw [← h.1]
        exact ⟨rfl, rfl, rfl⟩
    · simp only [Option.some.injEq, Prod.mk.injEq] at h
      rw [← h.1]
      exact ⟨rfl, rfl, rfl⟩
  · split at h
    · exact absurd h (by simp)
    · simp only [Option.some.injEq, Prod.mk.injEq] at h
      rw [← h.1]
      exact ⟨rfl, rfl, rfl⟩

-- Claim theorems

/-- Claim C1 (refuted; evaluation of the failing input): on a request from
the current-term leader whose previous-entry match trivially succeeds and
whose single entry agrees with the first local entry before running out, the
handler nevertheless truncates the follower's two-entry log to one entry —
the code deletes local entries solely because the incoming list is shorter. -/
theorem c1_truncates_when_incoming_runs_out :
    rfC1.log = [⟨1, 1, 10⟩, ⟨2, 1, 11⟩] ∧
    (appendEntries rfC1 argsC1 5).map (fun r => r.1.log) = some [⟨1, 1, 10⟩] := by
  decide

/-- Claim C2 (refuted; evaluation of the failing input): a receiver at term 1
that has already voted for "A" grants a same-term request from "B" with an
up-to-date log and overwrites `votedFor`, casting a second vote in term 1. -/
theorem c2_grants_second_vote_same_term :
    rfC2.votedFor = "A" ∧ argsC2.Term = rfC2.currentTerm ∧
    argsC2.CandidateID ≠ rfC2.votedFor ∧
    (requestVote rfC2 argsC2).2.VoteGranted = true ∧
    (requestVote rfC2 argsC2).1.votedFor = "B" := by
  decide

/-- Claim C3 (refuted; evaluation of the failing input): a vote request at
term 5 from a candidate whose log is not up-to-date leaves a term-1 receiver
entirely unchanged — it does not step down to Follower and does not adopt
term 5 — while denying the vote. -/
theorem c3_no_stepdown_when_vote_denied :
    rfC3.currentTerm = 1 ∧ argsC3.Term = 5 ∧ rfC3.state = Candidate ∧
    (requestVote rfC3 argsC3).2.VoteGranted = false ∧
    (requestVote rfC3 argsC3).1.currentTerm = 1 ∧
    (requestVote rfC3 argsC3).1.state = Candidate := by
  decide

/-- Claim C4 (refuted; evaluation of the failing input): on a receiver with an
empty log, a well-formed request whose previous entry is (1,1) reaches the
mismatch branch, which reads the term of the last local entry of the empty
log — an out-of-bounds access (runtime panic), modelled as `none`: no reply
is returned. -/
theorem c4_empty_log_mismatch_out_of_bounds :
    rfBase.log = [] ∧ appendEntries rfBase argsC4 0 = none := by
  decide

/-- Claim C5 (refuted; evaluation of the failing input): a term-2 request
(term ≥ currentTerm) carrying one entry truncates the follower's five-entry
log to one entry, and the commit update then lowers `commitIndex` from 3
to 1 — `commitIndex` decreases across this execution of the handler. -/
theorem c5_commit_index_decreases :
    rfC5.commitIndex = 3 ∧ rfC5.currentTerm ≤ argsC5.Term ∧
    (appendEntries rfC5 argsC5 0).map (fun r => r.1.commitIndex) = some 1 := by
  decide

/-- Claim C6, counterexample: in a single-node cluster the only entry is
eligible (`committable rfC6 1` holds: current term, above `commitIndex`, and
the leader alone is a strict majority of 1), yet `updateCommitIndex` leaves
`commitIndex` unchanged — the majority test only runs after counting some
other peer, so the claim as stated fails at this input. -/
theorem c6_single_node_counterexample :
    committable rfC6 1 ∧ (updateCommitIndex rfC6).commitIndex = rfC6.commitIndex ∧
    rfC6.commitIndex = 0 := by
  decide

/-- Claim C6 (amended: with at least two peers; the log assumed dense with
nondecreasing terms bounded by the current term, the spec's standing
invariants): `updateCommitIndex` moves `commitIndex` only to an eligible
index — one carried by a log entry of the current term, above the old commit
index, and held by a strict majority (the leader plus peers with
`matchIndex[peer] ≥ N`); when an eligible index exists it picks the largest
one, and when none exists `commitIndex` is unchanged. -/
theorem c6_update_commit_spec (rf : RaftState)
    (h2 : 2 ≤ rf.numPeers) (hdense : isDense rf.log = true)
    (hmono : termsMonotone rf.log = true)
    (hbound : rf.log.all (fun e => decide (e.Term ≤ rf.currentTerm)) = true) :
    ((updateCommitIndex rf).commitIndex ≠ rf.commitIndex →
        committable rf (updateCommitIndex rf).commitIndex) ∧
    ((∀ N, ¬ committable rf N) → (updateCommitIndex rf).commitIndex = rf.commitIndex) ∧
    (∀ N, committable rf N → (∀ M, committable rf M → M ≤ N) →
        (updateCommitIndex rf).commitIndex = N) := by
  refine ⟨?_, ?_, ?_⟩
  · intro hne
    rcases updateCommitAux_result rf rf.log.length le_rfl rf.commitIndex le_rfl (Or.inl rfl)
      with hres | hres
    · exact absurd hres hne
    · exact hres
  · intro hno
    exact updateCommitAux_no_committable rf hno rf.log.length le_rfl
  · intro N hN hmax
    have hNlen : N ≤ rf.log.length := by
      obtain ⟨⟨e, hmem, hIdx, _⟩, _, _⟩ := hN
      obtain ⟨p, hplen, hpe⟩ := mem_getD rf.log e ⟨0, 0, 0⟩ hmem
      have := isDense_getD rf.log p ⟨0, 0, 0⟩ hdense hplen
      rw [hpe] at this
      omega
    exact updateCommitAux_finds_largest rf h2 hdense hmono hbound N hN hmax
      rf.log.length hNlen le_rfl

/-- Witness for C6's theorem at a concrete three-node leader state. -/
theorem c6_update_commit_spec_witness :
    2 ≤ rfW6.numPeers ∧ isDense rfW6.log = true ∧ termsMonotone rfW6.log = true ∧
    rfW6.log.all (fun e => decide (e.Term ≤ rfW6.currentTerm)) = true ∧
    (((updateCommitIndex rfW6).commitIndex ≠ rfW6.commitIndex →
        committable rfW6 (updateCommitIndex rfW6).commitIndex) ∧
      ((∀ N, ¬ committable rfW6 N) → (updateCommitIndex rfW6).commitIndex = rfW6.commitIndex) ∧
      (∀ N, committable rfW6 N → (∀ M, committable rfW6 M → M ≤ N) →
        (updateCommitIndex rfW6).commitIndex = N)) :=
  ⟨by decide, by decide, by decide, by decide,
    c6_update_commit_spec rfW6 (by decide) (by decide) (by decide) (by decide)⟩

/-- Claim C7, counterexample: a node that was Leader when stopped — `Kill`
sets only the decommissioned flag and `Start` never consults it — still
appends the command and returns `(1, 2, true)` rather than the neutral
`(-1, currentTerm, false)`. -/
theorem c7_stopped_leader_still_appends :
    (Kill rfC7).isDecommissioned = true ∧ (Kill rfC7).state = Leader ∧
    (Start (Kill rfC7) 9).2 = (1, 2, true) ∧
    (Start (Kill rfC7) 9).1.log = [⟨1, 2, 9⟩] := by
  decide

/-- Claim C7 (amended: after `stop()` a `submit` on a node whose role is not
Leader returns `(-1, currentTerm, false)` and changes nothing; the stopped
flag itself is never consulted by `submit`, so a node stopped while Leader
keeps appending): the non-Leader half, proved for every stopped state. -/
theorem c7_submit_after_stop_not_leader (rf : RaftState) (c : Nat)
    (hstop : rf.isDecommissioned = true) (hrole : rf.state ≠ Leader) :
    Start rf c = (rf, -1, rf.currentTerm, false) := by
  have hb : (rf.state == Leader) = false := beq_eq_false_iff_ne.mpr hrole
  simp [Start, GetState, hb]

/-- Witness for C7's theorem: a stopped follower. -/
theorem c7_submit_after_stop_not_leader_witness :
    (Kill rfBase).isDecommissioned = true ∧ (Kill rfBase).state ≠ Leader ∧
    Start (Kill rfBase) 9 = (Kill rfBase, -1, (Kill rfBase).currentTerm, false) :=
  ⟨by decide, by decide,
    c7_submit_after_stop_not_leader (Kill rfBase) 9 (by decide) (by decide)⟩

/-- Claim C8: the persistent record round-trips — deserializing the bytes
produced by serializing `{currentTerm, votedFor, log}` yields the record back
exactly, and loading the bytes written by `persist` restores the same
`currentTerm`, `votedFor` and `log` into any replica state. -/
theorem c8_persistent_record_round_trip :
    (∀ s : RaftPersistence, deserialize (serialize s) = some s) ∧
    (∀ rf rfInit : RaftState,
      readPersist rfInit (persist rf) =
        { rfInit with
          currentTerm := rf.currentTerm,
          votedFor := rf.votedFor,
          log := rf.log }) := by
  have hround : ∀ s : RaftPersistence, deserialize (serialize s) = some s := by
    intro s
    have h1 := decodeEntries_encodeEntries s.Log (encodeString s.VotedFor)
    have h2 := decodeString_encodeString s.VotedFor []
    rw [List.append_nil] at h2
    simp only [serialize, deserialize, h1, h2]
  refine ⟨hround, ?_⟩
  intro rf rfInit
  show (if (persist rf).length < 1 then rfInit
    else
      let obj := (deserialize (persist rf)).getD ⟨0, [], ""⟩
      { rfInit with
        votedFor := obj.VotedFor,
        currentTerm := obj.CurrentTerm,
        log := obj.Log }) = _
  rw [if_neg (by simp [persist, serialize])]
  rw [show deserialize (persist rf) = some ⟨rf.currentTerm, rf.log, rf.votedFor⟩ from
    hround ⟨rf.currentTerm, rf.log, rf.votedFor⟩]
  rfl

/-- Claim C9: `submit` on a non-Leader returns `(-1, currentTerm, false)` and
leaves the state (hence the log) unchanged; on a Leader with a dense log it
appends exactly the entry `{lastLogIndex + 1, currentTerm, command}` and
returns that index, the current term, and `true`. -/
theorem c9_submit_behavior (rf : RaftState) (c : Nat) :
    (rf.state ≠ Leader → Start rf c = (rf, -1, rf.currentTerm, false)) ∧
    (rf.state = Leader → isDense rf.log = true →
      Start rf c =
        ({ rf with log := rf.log ++ [⟨(getLastEntryInfo rf).1 + 1, rf.currentTerm, c⟩] },
          ((getLastEntryInfo rf).1 : Int) + 1, rf.currentTerm, true)) := by
  constructor
  · intro hs
    have hb : (rf.state == Leader) = false := beq_eq_false_iff_ne.mpr hs
    simp [Start, GetState, hb]
  · intro hs hdense
    have hb : (rf.state == Leader) = true := by rw [hs]; rfl
    have hlast := lastIndex_eq_length rf hdense
    simp only [Start, GetState, hb, Bool.not_true, if_neg (by exact Bool.false_ne_true)]
    rcases Nat.eq_zero_or_pos rf.log.length with hlen | hlen
    · rw [if_neg (by omega)]
      rw [hlast, hlen]
      norm_num
    · rw [if_pos hlen]
      rw [hlast]
      norm_num

/-- Witness for C9's theorem: a concrete leader append and a concrete
non-leader rejection. -/
theorem c9_submit_behavior_witness :
    Start rfW9 7 =
      ({ rfW9 with log := rfW9.log ++ [⟨(getLastEntryInfo rfW9).1 + 1, rfW9.currentTerm, 7⟩] },
        ((getLastEntryInfo rfW9).1 : Int) + 1, rfW9.currentTerm, true) ∧
    Start rfBase 7 = (rfBase, -1, rfBase.currentTerm, false) :=
  ⟨(c9_submit_behavior rfW9 7).2 (by decide) (by decide),
    (c9_submit_behavior rfBase 7).1 (by decide)⟩

/-- Claim C10: every append request with `args.Term ≥ currentTerm` steps the
receiver down before any log processing — the pre-processing state already
has `votedFor` cleared, role Follower and term `args.Term`, the handler is
exactly the log phase run on that stepped-down state, and any reply-producing
run ends with `votedFor` still cleared, role Follower, and term `args.Term`;
in particular a vote already cast in the current term is erased. -/
theorem c10_append_resets_vote (rf : RaftState) (args : AppendEntriesArgs) (now : Nat)
    (h : rf.currentTerm ≤ args.Term) :
    (aeStepDown rf args now).votedFor = "" ∧
    (aeStepDown rf args now).state = Follower ∧
    (aeStepDown rf args now).currentTerm = args.Term ∧
    appendEntries rf args now = aeLogPhase (aeStepDown rf args now) args rf.currentTerm ∧
    (∀ rf' reply, appendEntries rf args now = some (rf', reply) →
      rf'.votedFor = "" ∧ rf'.state = Follower ∧ rf'.currentTerm = args.Term) := by
  have hsd : (aeStepDown rf args now).votedFor = "" ∧
      (aeStepDown rf args now).state = Follower ∧
      (aeStepDown rf args now).currentTerm = args.Term := by
    simp only [aeStepDown, transitionToFollower, if_true]
    simp
  have hae : appendEntries rf args now =
      aeLogPhase (aeStepDown rf args now) args rf.currentTerm := by
    unfold appendEntries
    rw [if_neg (by omega)]
  refine ⟨hsd.1, hsd.2.1, hsd.2.2, hae, ?_⟩
  intro rf' reply hsome
  rw [hae] at hsome
  have hp := aeLogPhase_preserves _ args rf.currentTerm rf' reply hsome
  exact ⟨hp.1.trans hsd.1, hp.2.1.trans hsd.2.1, hp.2.2.trans hsd.2.2⟩

/-- Witness for C10's theorem: a candidate that has voted for "C" in term 1
receives a same-term heartbeat. -/
theorem c10_append_resets_vote_witness :
    rfW10.currentTerm ≤ argsW10.Term ∧
    ((aeStepDown rfW10 argsW10 1).votedFor = "" ∧
      (aeStepDown rfW10 argsW10 1).state = Follower ∧
      (aeStepDown rfW10 argsW10 1).currentTerm = argsW10.Term ∧
      appendEntries rfW10 argsW10 1 =
        aeLogPhase (aeStepDown rfW10 argsW10 1) argsW10 rfW10.currentTerm ∧
      (∀ rf' reply, appendEntries rfW10 argsW10 1 = some (rf', reply) →
        rf'.votedFor = "" ∧ rf'.state = Follower ∧ rf'.currentTerm = argsW10.Term)) :=
  ⟨by decide, c10_append_resets_vote rfW10 argsW10 1 (by decide)⟩

end RaftModel
